import Mathlib

/-!
# Employee-report pipeline: a shallow embedding

A verification development for the employee-report transformation pipeline
(censor → select → sort → tabulate → render) of the `real-world-fp`
repository.  JS numbers are modelled exactly: an IEEE-754 binary64 value is
the rational it denotes, and each arithmetic step rounds the exact result to
the nearest double (ties to even), as the hardware does.  Rationals are
represented by an executable numerator/denominator pair kept in lowest terms
by construction, so that every arithmetic step evaluates by kernel
reduction.  Strings are Lean strings; JS arrays are lists;
`Array.prototype.sort` is modelled by a stable merge sort driven by the
source comparator, which per ECMA-262 determines the result whenever the
comparator is consistent.  Fallible operations (such as `reduce` with no
initial value, which throws on an empty array) return `Option`.
-/

set_option maxRecDepth 1000000

namespace RealWorldFP

/-! ## Executable exact rationals -/

/-- An exact rational `n / d`.  Every value built by the operations below has
`d > 0` and `n`, `d` coprime, so structural equality is value equality on
such values. -/
structure Q where
  n : Int
  d : Nat
deriving DecidableEq, Repr

/-- Reduce to lowest terms (positive denominator assumed). -/
def Q.norm (a : Q) : Q :=
  let g := Int.gcd a.n (a.d : Int)
  if g = 0 then ⟨0, 1⟩ else ⟨a.n / (g : Int), a.d / g⟩

/-- Embed an integer. -/
def Q.ofInt (m : Int) : Q := ⟨m, 1⟩

/-- Build `m / d` in lowest terms. -/
def Q.mk' (m : Int) (d : Nat) : Q := Q.norm ⟨m, d⟩

def Q.add (a b : Q) : Q := Q.norm ⟨a.n * (b.d : Int) + b.n * (a.d : Int), a.d * b.d⟩

def Q.sub (a b : Q) : Q := Q.norm ⟨a.n * (b.d : Int) - b.n * (a.d : Int), a.d * b.d⟩

def Q.mul (a b : Q) : Q := Q.norm ⟨a.n * b.n, a.d * b.d⟩

def Q.neg (a : Q) : Q := ⟨-a.n, a.d⟩

/-- Comparison by cross-multiplication (denominators are positive). -/
def Q.blt (a b : Q) : Bool := a.n * (b.d : Int) < b.n * (a.d : Int)

def Q.ble (a b : Q) : Bool := a.n * (b.d : Int) ≤ b.n * (a.d : Int)

def Q.abs (a : Q) : Q := if a.n < 0 then ⟨-a.n, a.d⟩ else a

/-- `⌊a⌋`, via flooring integer division. -/
def Q.floor (a : Q) : Int := a.n.fdiv (a.d : Int)

/-- `1/2`, the rounding threshold. -/
def Q.half : Q := ⟨1, 2⟩

/-! ## Exact binary64 arithmetic -/

/-- Shift amounts for a binary descent computing `⌊log₂⌋`; they cover every
number below `2^8192`, far beyond the finite binary64 range this model
covers. -/
def log2Steps : List Nat := [4096, 2048, 1024, 512, 256, 128, 64, 32, 16, 8, 4, 2, 1]

/-- Binary descent: strip the leading `s` bits whenever the value still has
them, accumulating the exponent. -/
def floorLog2Aux : List Nat → Nat → Nat → Nat
  | [], _, acc => acc
  | s :: rest, m, acc =>
    if 1 <<< s ≤ m then floorLog2Aux rest (m >>> s) (acc + s) else floorLog2Aux rest m acc

/-- `⌊log₂ m⌋` for `1 ≤ m < 2^8192`. -/
def natFloorLog2 (m : Nat) : Nat := floorLog2Aux log2Steps m 0

/-- `⌊log₁₀ m⌋` for `1 ≤ m < 2^8192`: estimate from `⌊log₂ m⌋ · log₁₀ 2` and
correct the at-most-one-off estimate against actual powers of ten. -/
def natFloorLog10 (m : Nat) : Nat :=
  let d0 := natFloorLog2 m * 30103 / 100000
  if 10 ^ (d0 + 1) ≤ m then d0 + 1
  else if 10 ^ d0 ≤ m then d0
  else d0 - 1

/-- `2^e` for an integer exponent. -/
def qpow2 (e : Int) : Q := if 0 ≤ e then ⟨(2:Int) ^ e.toNat, 1⟩ else ⟨1, 2 ^ (-e).toNat⟩

/-- `10^e` for an integer exponent. -/
def qpow10 (e : Int) : Q := if 0 ≤ e then ⟨(10:Int) ^ e.toNat, 1⟩ else ⟨1, 10 ^ (-e).toNat⟩

/-- `⌊log₂ q⌋` for a positive rational `q`. -/
def ratFloorLog2 (q : Q) : Int :=
  if Q.ble ⟨1, 1⟩ q then (natFloorLog2 (q.n.toNat / q.d) : Int)
  else
    let m := natFloorLog2 ((q.d : Int).toNat / q.n.toNat)
    if Q.mul q (qpow2 m) = ⟨1, 1⟩ then -(m : Int) else -((m : Int) + 1)

/-- `⌊log₁₀ q⌋` for a positive rational `q`. -/
def ratFloorLog10 (q : Q) : Int :=
  if Q.ble ⟨1, 1⟩ q then (natFloorLog10 (q.n.toNat / q.d) : Int)
  else
    let m := natFloorLog10 ((q.d : Int).toNat / q.n.toNat)
    if Q.mul q (qpow10 m) = ⟨1, 1⟩ then -(m : Int) else -((m : Int) + 1)

/-- Round a rational to the nearest integer, ties to even. -/
def roundNearestEven (t : Q) : Int :=
  let fl : Int := t.floor
  let frac : Q := t.sub (Q.ofInt fl)
  if Q.blt frac Q.half then fl
  else if Q.blt Q.half frac then fl + 1
  else if fl % 2 = 0 then fl else fl + 1

/-- Round a positive rational to the nearest binary64 value: scale into the
53-bit significand range `[2^52, 2^53)`, round to the nearest integer
significand (ties to even), and scale back. -/
def toDoublePos (q : Q) : Q :=
  let e : Int := ratFloorLog2 q - 52
  let m : Int := roundNearestEven (q.mul (qpow2 (-e)))
  (Q.ofInt m).mul (qpow2 e)

/-- Round a rational to the nearest IEEE-754 binary64 value (round to nearest,
ties to even), returned as the exact rational that double denotes.  This
models JS number arithmetic throughout the normal finite range, the only
range the program's data occupies; overflow to infinity and subnormal
rounding are outside the model. -/
def toDouble (q : Q) : Q :=
  if q.n = 0 then ⟨0, 1⟩
  else if q.n < 0 then Q.neg (toDoublePos (Q.neg q))
  else toDoublePos q

/-- JS `+` on numbers: exact sum, rounded to the nearest double. -/
def addD (a b : Q) : Q := toDouble (a.add b)

/-- A JS decimal literal with `d` fractional digits, `m / 10^d`, parsed to the
nearest double. -/
def dlit (m : Int) (d : Nat) : Q := toDouble (Q.mk' m (10 ^ d))

/-! ## JS `Number::toString` (ECMA-262 6.1.6.1.20, base 10) -/

/-- The character for a decimal digit. -/
def natDigitChar (m : Nat) : Char := Char.ofNat (48 + m)

/-- Fuel-driven decimal digit expansion (most significant digit first). -/
def natDigitsFuel : Nat → Nat → List Char
  | 0, _ => []
  | fuel+1, m =>
    if m < 10 then [natDigitChar m]
    else natDigitsFuel fuel (m / 10) ++ [natDigitChar (m % 10)]

/-- Decimal digits of a natural number (at most 32 digits arise here). -/
def natDigits (m : Nat) : List Char := natDigitsFuel 32 m

/-- A decimal candidate for `Number::toString`: `k` significant digits `s`
denoting the value `s · 10^(n-k)`. -/
structure DecParts where
  s : Nat
  n : Int
  k : Nat
deriving DecidableEq

/-- The value a candidate denotes. -/
def decValue (c : DecParts) : Q := (Q.ofInt c.s).mul (qpow10 (c.n - (c.k : Int)))

/-- Normalize a rounded significand into a `k`-digit candidate; a carry to
`10^k` renormalizes to one leading digit at the next decimal exponent. -/
def normCand (k : Nat) (n0 : Int) (s : Int) : Option DecParts :=
  if s = (10:Int)^k then some ⟨10^(k-1), n0 + 1, k⟩
  else if (10:Int)^(k-1) ≤ s ∧ s < (10:Int)^k then some ⟨s.toNat, n0, k⟩
  else none

/-- The `k`-significant-digit decimals nearest `x` whose double value is
exactly `x` (at most the rounded significand and its two neighbours can
qualify). -/
def candsK (x : Q) (k : Nat) : List DecParts :=
  let n0 : Int := ratFloorLog10 x + 1
  let t : Q := x.mul (qpow10 ((k : Int) - n0))
  let s0 : Int := roundNearestEven t
  ([s0, s0 - 1, s0 + 1].filterMap (normCand k n0)).filter
    (fun c => decide (toDouble (decValue c) = x))

/-- Among qualifying candidates choose the one closest to `x`; on a tie the
even significand, per ECMA-262. -/
def betterCand (x : Q) (a b : DecParts) : DecParts :=
  let da := ((decValue a).sub x).abs
  let db := ((decValue b).sub x).abs
  if Q.blt da db then a
  else if Q.blt db da then b
  else if a.s % 2 = 0 then a else b

/-- Pick the preferred candidate from a list, if any. -/
def pickCand (x : Q) : List DecParts → Option DecParts
  | [] => none
  | c :: cs => some (cs.foldl (betterCand x) c)

/-- Search digit counts `k, k+1, …` for the least one admitting an exact
candidate. -/
def shortestDecFrom (x : Q) : Nat → Nat → Option DecParts
  | 0, _ => none
  | fuel+1, k =>
    match pickCand x (candsK x k) with
    | some c => some c
    | none => shortestDecFrom x fuel (k+1)

/-- ECMA-262 digit selection: the shortest decimal (fewest significant
digits, then closest, ties to even) that reads back as exactly `x`; 17
digits always suffice for a binary64 value. -/
def shortestDec (x : Q) : Option DecParts := shortestDecFrom x 17 1

/-- ECMA-262 positioning of the digits: plain notation for decimal exponents
in `(-6, 21]`, exponential notation elsewhere. -/
def fmtDec (c : DecParts) : List Char :=
  let ds := natDigits c.s
  let k : Int := (c.k : Int)
  let n : Int := c.n
  if k ≤ n ∧ n ≤ 21 then ds ++ List.replicate (n - k).toNat '0'
  else if 0 < n ∧ n ≤ 21 then ds.take n.toNat ++ '.' :: ds.drop n.toNat
  else if -6 < n ∧ n ≤ 0 then '0' :: '.' :: (List.replicate (-n).toNat '0' ++ ds)
  else
    let exDigits := (if n - 1 < 0 then ['-'] else ['+']) ++ natDigits (n - 1).natAbs
    if c.k = 1 then ds ++ 'e' :: exDigits
    else ds.take 1 ++ '.' :: (ds.drop 1 ++ 'e' :: exDigits)

/-- Digits of a positive double value. -/
def jsNumToStringPos (x : Q) : List Char :=
  match shortestDec x with
  | some c => fmtDec c
  | none => []

/-- JS `ToString` on a (double-valued) number. -/
def jsNumToString (x : Q) : String :=
  if x.n = 0 then "0"
  else if x.n < 0 then String.mk ('-' :: jsNumToStringPos (Q.neg x))
  else String.mk (jsNumToStringPos x)

/-! ## The censor stage

The source: `s.replace(/\d{3}-\d{2}-(\d{4})/g, (_, lastFour) =>` producing
`xxx-xx-` followed by the captured last four digits, for every
(leftmost, non-overlapping) occurrence. -/

/-- Match exactly `k` decimal digits at the head, returning them and the
remainder. -/
def takeDigits : Nat → List Char → Option (List Char × List Char)
  | 0, rest => some ([], rest)
  | _+1, [] => none
  | k+1, c :: rest =>
    if c.isDigit then (takeDigits k rest).map (fun p => (c :: p.1, p.2))
    else none

/-- Match a literal hyphen at the head, returning the remainder. -/
def expectHyphen : List Char → Option (List Char)
  | c :: rest => if c = '-' then some rest else none
  | [] => none

/-- Match the regex `\d{3}-\d{2}-(\d{4})` at the head of the text; on success
return the captured last four digits and the remainder after the match. -/
def matchSSN (s : List Char) : Option (List Char × List Char) :=
  (takeDigits 3 s).bind fun p1 =>
    (expectHyphen p1.2).bind fun r2 =>
      (takeDigits 2 r2).bind fun p2 =>
        (expectHyphen p2.2).bind fun r4 =>
          takeDigits 4 r4

/-- The replacement text before the captured digits. -/
def xxxMask : List Char := ['x', 'x', 'x', '-', 'x', 'x', '-']

/-- Global regex replacement as a left-to-right scan: at each position either
replace a leftmost match (resuming after it) or keep the character.  The fuel
only needs to cover the string length; with fuel `0` the remainder is
returned unscanned. -/
def censorFuel : Nat → List Char → List Char
  | 0, s => s
  | _+1, [] => []
  | fuel+1, c :: cs =>
    match matchSSN (c :: cs) with
    | some (four, rest) => xxxMask ++ (four ++ censorFuel fuel rest)
    | none => c :: censorFuel fuel cs

/-- The censor stage of the pipeline. -/
def censor (s : String) : String := String.mk (censorFuel s.data.length s.data)

/-- Declaratively, a full match of `\d{3}-\d{2}-(\d{4})`: three digits,
hyphen, two digits, hyphen, four digits. -/
def IsSSN (v : List Char) : Prop :=
  ∃ a b c, v = a ++ '-' :: (b ++ '-' :: c) ∧
    a.length = 3 ∧ b.length = 2 ∧ c.length = 4 ∧
    (∀ ch ∈ a, ch.isDigit) ∧ (∀ ch ∈ b, ch.isDigit) ∧ (∀ ch ∈ c, ch.isDigit)

/-- Head check for the idempotence condition: the text resuming after a
match must not start with a digit or a hyphen (else the match's preserved
last four digits can seed a fresh match on a second pass). -/
def headOk : List Char → Bool
  | [] => true
  | c :: _ => !c.isDigit && c != '-'

/-- Scan mirroring `censorFuel`: check that every match found by the
censoring scan is followed by a non-digit, non-hyphen character (or the
end). -/
def safeScanFuel : Nat → List Char → Bool
  | 0, _ => true
  | _+1, [] => true
  | fuel+1, c :: cs =>
    match matchSSN (c :: cs) with
    | some (_, rest) => headOk rest && safeScanFuel fuel rest
    | none => safeScanFuel fuel cs

/-- Every match in `s` is followed by a non-digit, non-hyphen character or
the end of the text. -/
def safeScan (s : String) : Bool := safeScanFuel s.data.length s.data

/-- Pointwise effect of censoring on a character: it is kept, or it is a
digit overwritten by `x`.  Replacement preserves length, so censoring
relates input to output position by position through this relation. -/
inductive CChar : Char → Char → Prop
  | keep (c : Char) : CChar c c
  | xout (c : Char) : c.isDigit → CChar c 'x'

/-! ## Employee records, tables, and the pipeline stages -/

/-- An employee record as decoded from the JSON input. -/
structure Employee where
  firstName : String
  lastName : String
  socialSecurity : String
  active : Bool
  pay : List Q
deriving DecidableEq, Repr

/-- A table cell: JS strings and numbers. -/
inductive Cell where
  | str : String → Cell
  | num : Q → Cell
deriving DecidableEq, Repr

/-- A table: a list of rows of cells (header row first when built). -/
abbrev Table := List (List Cell)

/-- JS `ToString` of a cell, as used by `Array.prototype.join`. -/
def cellToString : Cell → String
  | .str s => s
  | .num x => jsNumToString x

/-- JS `row.join(",")`. -/
def joinRow (row : List Cell) : String := String.intercalate "," (row.map cellToString)

/-- JS `table.join("\n")`: rows joined by newline, each row stringified by
joining its cells with commas — the CSV renderer. -/
def toCSV (t : Table) : String := String.intercalate "\n" (t.map joinRow)

/-- JS `pay.reduce((acc, curr) => acc + curr)` — *no* initial value, so JS
throws a `TypeError` on an empty array; otherwise the head seeds the fold. -/
def jsReduceAdd : List Q → Option Q
  | [] => none
  | x :: xs => some (xs.foldl addD x)

/-- `Array.prototype.map` with a body that can throw: the first failing
element aborts the whole call. -/
def mapO {α β : Type} (f : α → Option β) : List α → Option (List β)
  | [] => some []
  | a :: l => (f a).bind fun y => (mapO f l).map fun ys => y :: ys

/-- The summation loop `let employeeTotal = 0; for (...) employeeTotal +=
employee.pay[j]` of the class-based reporters. -/
def sumPayLoop (pay : List Q) : Q := pay.foldl addD (Q.ofInt 0)

/-- `filter((x) => x.active)` / the `filterByActive` loop: keep the active
records, in order, in a fresh collection. -/
def selectActive : List Employee → List Employee
  | [] => []
  | e :: rest => if e.active then e :: selectActive rest else selectActive rest

/-- JS string `<`: lexicographic comparison of the character sequences. -/
def strLtB : List Char → List Char → Bool
  | [], [] => false
  | [], _ :: _ => true
  | _ :: _, [] => false
  | a :: as, b :: bs => if a < b then true else if b < a then false else strLtB as bs

/-- JS `a.lastName < b.lastName`. -/
def jsStrLt (a b : String) : Bool := strLtB a.data b.data

/-- The comparator of `sortByLastName`: `-1` when the first last name is
smaller, `1` when greater, `0` on ties. -/
def lastNameCmp (a b : Employee) : Int :=
  if jsStrLt a.lastName b.lastName then -1
  else if jsStrLt b.lastName a.lastName then 1
  else 0

/-- `xs.sort(comparator)`: ECMA-262 requires a stable sort consistent with
the comparator (keep `a` before `b` whenever `comparator(a,b) ≤ 0`), which
pins down the result; modelled by stable merge sort.  The sort also happens
*in place*: afterwards the argument array holds this same result. -/
def sortByLastName (xs : List Employee) : List Employee :=
  xs.mergeSort (fun a b => decide (lastNameCmp a b ≤ 0))

/-- The comparator of `sortByLastName2 (xs, order)` from the currying draft:
the sign of each branch is chosen by `order === "desc"`. -/
def lastNameCmpOrd (order : String) (a b : Employee) : Int :=
  if jsStrLt a.lastName b.lastName then (if order = "desc" then -1 else 1)
  else if jsStrLt b.lastName a.lastName then (if order = "desc" then 1 else -1)
  else 0

/-- `sortByLastName2 (xs, order)`: stable in-place sort under
`lastNameCmpOrd order`. -/
def sortByLastName2 (xs : List Employee) (order : String) : List Employee :=
  xs.mergeSort (fun a b => decide (lastNameCmpOrd order a b ≤ 0))

/-- `makeEmployeeSummaryTable` of the monolithic `SalaryReporter`: header
`["Last Name", "First Name", "Total Salary"]`, then one row per *active*
employee with the loop-summed total. -/
def makeEmployeeSummaryTable (employees : List Employee) : Table :=
  [Cell.str "Last Name", Cell.str "First Name", Cell.str "Total Salary"] ::
    (employees.filter (·.active)).map (fun e =>
      [Cell.str e.lastName, Cell.str e.firstName, Cell.num (sumPayLoop e.pay)])

/-- `JSONtoTable` of the composed pipeline: four-label header, rows
`[lastName, firstName, socialSecurity, pay.reduce((acc,curr) => acc+curr)]`;
the no-initial-value reduce makes the whole call throw when some record has
an empty `pay`, hence `Option`. -/
def JSONtoTable (employees : List Employee) : Option Table :=
  (mapO (fun e =>
    (jsReduceAdd e.pay).map (fun total =>
      [Cell.str e.lastName, Cell.str e.firstName, Cell.str e.socialSecurity,
        Cell.num total])) employees).map
    (fun rows =>
      [Cell.str "Last Name", Cell.str "First Name", Cell.str "Total Pay",
        Cell.str "Social Security Number"] :: rows)

/-- `makeTable` of the functional draft: two-label header
`["Last Name", "First Name"]`, rows `[lastName, firstName, reduce-sum]`;
same no-initial-value reduce. -/
def makeTable (employees : List Employee) : Option Table :=
  (mapO (fun e =>
    (jsReduceAdd e.pay).map (fun total =>
      [Cell.str e.lastName, Cell.str e.firstName, Cell.num total])) employees).map
    (fun rows => [Cell.str "Last Name", Cell.str "First Name"] :: rows)

/-! ## Renderers -/

/-- Header cells `map((heading) => "<th>…</th>").join("")`. -/
def thCells (row : List Cell) : String :=
  String.join (row.map (fun c => "<th>" ++ cellToString c ++ "</th>"))

/-- Data cells `map((data) => "<td>…</td>").join("")`. -/
def tdCells (row : List Cell) : String :=
  String.join (row.map (fun c => "<td>" ++ cellToString c ++ "</td>"))

/-- `toHTML (tableData)` of the composed pipeline: row 0 rendered as `<th>`
cells, the remaining rows as `<td>` cells, spliced into the table template.
The source reads nothing but its argument — in particular no clock. -/
def toHTML (tableData : Table) : String :=
  let headerRow := "<tr>" ++ thCells (tableData.headD []) ++ "</tr>"
  let dataRows := String.join ((tableData.drop 1).map (fun row => "<tr>" ++ tdCells row ++ "</tr>"))
  "\n  <table>\n    <thead>\n      " ++ headerRow ++ "\n    </thead>\n    <tbody>\n      "
    ++ dataRows ++ "\n    </tbody>\n  </table>"

/-- `toHTML` with the ambient system clock made explicit as an extra input:
the source body never consults it, so the parameter is unused. -/
def toHTMLAt (tableData : Table) (_clock : String) : String := toHTML tableData

/-- `SalaryReporterHTMLReporter.write` of the procedural draft, HTML
document only (the file write is the caller's I/O): `const date = new
Date()` reads the system clock — made explicit here as the `date` input —
and splices it into the `<title>`. -/
def htmlWriteReport (parsedData : Table) (date : String) : String :=
  let headerRow := "<tr>" ++ thCells (parsedData.headD []) ++ "</tr>"
  let dataRows := String.join ((parsedData.drop 1).map (fun row => "<tr>" ++ tdCells row ++ "</tr>"))
  "<html>\n    <head>\n      <title>Employee Report: " ++ date
    ++ "</title>\n    </head>\n    <body>\n      <table>\n        <thead>\n          "
    ++ headerRow ++ "\n        </thead>\n        <tbody>\n          " ++ dataRows
    ++ "\n        </tbody>\n      </table>\n    </body>\n  </html>"

/-! ## Mutation model for the pipeline stages

A stage call is recorded together with the value the caller's argument
holds after the call: `Array.prototype.filter` and `map` allocate fresh
arrays and leave the argument alone, while `Array.prototype.sort` reorders
the argument array itself and returns that same reference. -/

/-- The result of calling a stage: the returned value, and what the
caller's argument holds afterwards. -/
structure Call (α : Type) (β : Type) where
  ret : β
  argAfter : α
deriving DecidableEq, Repr

/-- `selectActive(records)`: `filter` allocates a fresh array. -/
def selectActiveCall (xs : List Employee) : Call (List Employee) (List Employee) :=
  ⟨selectActive xs, xs⟩

/-- `sortByLastName(records)`: `xs.sort(...)` sorts in place and returns
`xs` itself, so the argument afterwards holds the sorted sequence. -/
def sortByLastNameCall (xs : List Employee) : Call (List Employee) (List Employee) :=
  ⟨sortByLastName xs, sortByLastName xs⟩

/-- `censor(s)`: JS strings are immutable. -/
def censorCall (s : String) : Call String String := ⟨censor s, s⟩

/-- `JSONtoTable(records)`: `concat`/`map` allocate fresh arrays. -/
def JSONtoTableCall (xs : List Employee) : Call (List Employee) (Option Table) :=
  ⟨JSONtoTable xs, xs⟩

/-! ## The concrete test data -/

/-- John Doe's twelve payments. -/
def johnPay : List Q :=
  [dlit 833333 2, dlit 833333 2, dlit 833333 2, dlit 802145 2, dlit 7023 0,
    dlit 902367 2, dlit 833333 2, dlit 833333 2, dlit 833333 2, dlit 6500 0,
    dlit 833333 2, dlit 833333 2]

/-- Mary Jane's twelve payments. -/
def maryPay : List Q :=
  [dlit 1208333 2, dlit 1208333 2, dlit 1208333 2, dlit 11000 0, dlit 1210224 2,
    dlit 1208333 2, dlit 1208333 2, dlit 1208333 2, dlit 20076 0, dlit 1208333 2,
    dlit 1208333 2, dlit 1208333 2]

/-- The first test record. -/
def johnDoe : Employee := ⟨"John", "Doe", "165-02-2588", true, johnPay⟩

/-- The second test record (identifier digits beyond the test's visible
last-four are immaterial to every statement below). -/
def maryJane : Employee := ⟨"Mary", "Jane", "078-05-6322", true, maryPay⟩

/-- A small record with last name `"A"`, for counterexamples. -/
def empA : Employee := ⟨"Ann", "A", "s", true, [Q.ofInt 1]⟩

/-- A small record with last name `"B"`, for counterexamples. -/
def empB : Employee := ⟨"Bob", "B", "s", true, [Q.ofInt 1]⟩

/-- Two distinct records sharing a last name, for stability statements. -/
def empT1 : Employee := ⟨"Tina", "T", "s", true, [Q.ofInt 1]⟩

/-- See `empT1`. -/
def empT2 : Employee := ⟨"Tom", "T", "s", false, [Q.ofInt 2]⟩

/-- A one-payment record, for single-row table evaluations. -/
def doeOne : Employee := ⟨"John", "Doe", "165-02-2588", true, [Q.ofInt 100]⟩

/-- A well-formed record whose payments sequence is empty. -/
def emptyPayEmp : Employee := ⟨"Eve", "Empty", "200-11-3333", true, []⟩

/-!
# Properties

Helper lemmas first, then one theorem per claim of the specification
(with a witness instantiation wherever a claim theorem carries
hypotheses).
-/

/-! ## The censoring scan -/

theorem censorFuel_nilInput : ∀ fuel, censorFuel fuel ([] : List Char) = [] := by
  intro fuel
  cases fuel <;> simp [censorFuel]

theorem takeDigits_some : ∀ {k : Nat} {s ds r : List Char},
    takeDigits k s = some (ds, r) →
    ds.length = k ∧ s = ds ++ r ∧ ∀ ch ∈ ds, ch.isDigit := by
  intro k
  induction k with
  | zero =>
    intro s ds r h
    simp only [takeDigits, Option.some.injEq, Prod.mk.injEq] at h
    obtain ⟨h1, h2⟩ := h
    subst h1; subst h2
    simp
  | succ k ih =>
    intro s ds r h
    cases s with
    | nil => simp [takeDigits] at h
    | cons c cs =>
      by_cases hc : c.isDigit
      · simp only [takeDigits, hc, if_true, Option.map_eq_some'] at h
        obtain ⟨⟨ds', r'⟩, hp, heq⟩ := h
        obtain ⟨hlen, happ, hdig⟩ := ih hp
        simp only [Prod.mk.injEq] at heq
        obtain ⟨h1, h2⟩ := heq
        subst h1; subst h2
        refine ⟨by simp [hlen], by simp [happ], ?_⟩
        intro ch hch
        rcases List.mem_cons.1 hch with h | h
        · subst h; exact hc
        · exact hdig ch h
      · simp [takeDigits, hc] at h

theorem takeDigits_exact (ds : List Char) : ∀ (rest : List Char),
    (∀ ch ∈ ds, ch.isDigit) →
    takeDigits ds.length (ds ++ rest) = some (ds, rest) := by
  induction ds with
  | nil => intro rest _; simp [takeDigits]
  | cons c cs ih =>
    intro rest hd
    have hc : c.isDigit := hd c (by simp)
    have hrec := ih rest (fun ch hm => hd ch (by simp [hm]))
    simp [takeDigits, hc, hrec]

theorem takeDigits_exact' (k : Nat) (ds rest : List Char) (hlen : ds.length = k)
    (hd : ∀ ch ∈ ds, ch.isDigit) :
    takeDigits k (ds ++ rest) = some (ds, rest) := by
  subst hlen
  exact takeDigits_exact ds rest hd

theorem expectHyphen_some : ∀ {s r : List Char}, expectHyphen s = some r → s = '-' :: r := by
  intro s r h
  cases s with
  | nil => simp [expectHyphen] at h
  | cons c cs =>
    by_cases hc : c = '-'
    · subst hc
      simp only [expectHyphen, if_true, Option.some.injEq] at h
      subst h; rfl
    · simp [expectHyphen, hc] at h

theorem matchSSN_some_decomp : ∀ {s four rest : List Char},
    matchSSN s = some (four, rest) →
    ∃ a b, s = a ++ '-' :: (b ++ '-' :: (four ++ rest)) ∧
      a.length = 3 ∧ b.length = 2 ∧ four.length = 4 ∧
      (∀ ch ∈ a, ch.isDigit) ∧ (∀ ch ∈ b, ch.isDigit) ∧ (∀ ch ∈ four, ch.isDigit) := by
  intro s four rest h
  simp only [matchSSN, Option.bind_eq_some] at h
  obtain ⟨⟨a, r1⟩, h3, r2, hH1, ⟨b, r3⟩, h2, r4, hH2, h4⟩ := h
  obtain ⟨ha3, hsa, hda⟩ := takeDigits_some h3
  obtain ⟨hb2, hsb, hdb⟩ := takeDigits_some h2
  obtain ⟨hf4, hsf, hdf⟩ := takeDigits_some h4
  have e1 := expectHyphen_some hH1
  have e2 := expectHyphen_some hH2
  refine ⟨a, b, ?_, ha3, hb2, hf4, hda, hdb, hdf⟩
  simp only at e1 e2
  rw [hsa, e1, hsb, e2, hsf]

theorem matchSSN_eq_some (a b c rest : List Char)
    (ha : a.length = 3) (hb : b.length = 2) (hc : c.length = 4)
    (da : ∀ ch ∈ a, ch.isDigit) (db : ∀ ch ∈ b, ch.isDigit) (dc : ∀ ch ∈ c, ch.isDigit) :
    matchSSN (a ++ '-' :: (b ++ '-' :: (c ++ rest))) = some (c, rest) := by
  have t3 := takeDigits_exact' 3 a ('-' :: (b ++ '-' :: (c ++ rest))) ha da
  have t2 := takeDigits_exact' 2 b ('-' :: (c ++ rest)) hb db
  have t4 := takeDigits_exact' 4 c rest hc dc
  simp [matchSSN, t3, t2, t4, expectHyphen]

theorem matchSSN_some_length : ∀ {s four rest : List Char},
    matchSSN s = some (four, rest) → s.length = 11 + rest.length ∧ four.length = 4 := by
  intro s four rest h
  obtain ⟨a, b, hs, ha, hb, hf, -, -, -⟩ := matchSSN_some_decomp h
  subst hs
  simp [ha, hb, hf]
  omega

theorem matchSSN_none_not_digit : ∀ {c : Char} {cs : List Char}, c.isDigit = false →
    matchSSN (c :: cs) = none := by
  intro c cs hc
  simp [matchSSN, takeDigits, hc]

theorem matchSSN_head_digit : ∀ {c : Char} {cs : List Char} {p},
    matchSSN (c :: cs) = some p → c.isDigit = true := by
  intro c cs p h
  by_cases hc : c.isDigit
  · exact hc
  · rw [matchSSN_none_not_digit (Bool.not_eq_true _ ▸ hc)] at h
    exact absurd h (by simp)

theorem censorFuel_length (fuel : Nat) : ∀ s : List Char,
    (censorFuel fuel s).length = s.length := by
  induction fuel with
  | zero => intro s; simp [censorFuel]
  | succ fuel ih =>
    intro s
    cases s with
    | nil => simp [censorFuel]
    | cons c cs =>
      cases hm : matchSSN (c :: cs) with
      | none => simp [censorFuel, hm, ih cs]
      | some p =>
        obtain ⟨four, rest⟩ := p
        obtain ⟨hl, hf⟩ := matchSSN_some_length hm
        simp only [List.length_cons] at hl
        simp [censorFuel, hm, ih rest, xxxMask, hf]
        omega

theorem length_eq_four {l : List Char} : l.length = 4 → ∃ a b c d, l = [a, b, c, d] := by
  intro h
  cases l with
  | nil => simp at h
  | cons a l1 =>
    cases l1 with
    | nil => simp at h
    | cons b l2 =>
      cases l2 with
      | nil => simp at h
      | cons c l3 =>
        cases l3 with
        | nil => simp at h
        | cons d l4 =>
          cases l4 with
          | nil => exact ⟨a, b, c, d, rfl⟩
          | cons e l5 => simp at h

theorem cchar_digit_target : ∀ {c c' : Char}, CChar c c' → c'.isDigit = true → c = c' := by
  intro c c' h hd
  cases h with
  | keep => rfl
  | xout _ => exact absurd hd (by decide)

theorem cchar_hyphen_target : ∀ {c : Char}, CChar c '-' → c = '-' := by
  intro c h
  cases h
  rfl

theorem takeDigits_cchar : ∀ (k : Nat) {s t ds r : List Char}, List.Forall₂ CChar s t →
    takeDigits k t = some (ds, r) →
    ∃ ds' r', takeDigits k s = some (ds', r') ∧
      List.Forall₂ CChar ds' ds ∧ List.Forall₂ CChar r' r := by
  intro k
  induction k with
  | zero =>
    intro s t ds r hrel h
    simp only [takeDigits, Option.some.injEq, Prod.mk.injEq] at h
    obtain ⟨h1, h2⟩ := h
    subst h1; subst h2
    exact ⟨[], s, by simp [takeDigits], .nil, hrel⟩
  | succ k ih =>
    intro s t ds r hrel h
    cases t with
    | nil => simp [takeDigits] at h
    | cons c' t' =>
      by_cases hc' : c'.isDigit
      · cases s with
        | nil => cases hrel
        | cons c s' =>
          cases hrel with
          | cons hc hrest =>
            have hcc : c = c' := cchar_digit_target hc hc'
            simp only [takeDigits, hc', if_true, Option.map_eq_some'] at h
            obtain ⟨⟨ds0, r0⟩, hp, heq⟩ := h
            simp only [Prod.mk.injEq] at heq
            obtain ⟨h1, h2⟩ := heq
            subst h1; subst h2
            obtain ⟨ds1, r1, htd, rel1, rel2⟩ := ih hrest hp
            subst hcc
            refine ⟨c :: ds1, r1, ?_, .cons hc rel1, rel2⟩
            simp [takeDigits, hc', htd]
      · simp [takeDigits, hc'] at h

theorem matchSSN_cchar_some : ∀ {s t four rest : List Char}, List.Forall₂ CChar s t →
    matchSSN t = some (four, rest) → ∃ p, matchSSN s = some p := by
  intro s t four rest hrel h
  simp only [matchSSN, Option.bind_eq_some] at h
  obtain ⟨⟨a, r1⟩, h3, r2, hH1, ⟨b, r3⟩, h2, r4, hH2, h4⟩ := h
  obtain ⟨ds1, rr1, ht3, _, relr1⟩ := takeDigits_cchar 3 hrel h3
  have e1 := expectHyphen_some hH1
  simp only at e1
  subst e1
  cases rr1 with
  | nil => cases relr1
  | cons ch1 rr2 =>
    cases relr1 with
    | cons hch1 hrest1 =>
      have hch1' := cchar_hyphen_target hch1
      subst hch1'
      obtain ⟨ds2, rr3, ht2, _, relr3⟩ := takeDigits_cchar 2 hrest1 h2
      have e2 := expectHyphen_some hH2
      simp only at e2
      subst e2
      cases rr3 with
      | nil => cases relr3
      | cons ch2 rr4 =>
        cases relr3 with
        | cons hch2 hrest2 =>
          have hch2' := cchar_hyphen_target hch2
          subst hch2'
          obtain ⟨ds4, rr5, ht4, _, _⟩ := takeDigits_cchar 4 hrest2 h4
          refine ⟨(ds4, rr5), ?_⟩
          simp [matchSSN, ht3, expectHyphen, ht2, ht4]

theorem matchSSN_cchar_none : ∀ {s t : List Char}, List.Forall₂ CChar s t →
    matchSSN s = none → matchSSN t = none := by
  intro s t hrel h
  cases hm : matchSSN t with
  | none => rfl
  | some p =>
    obtain ⟨four, rest⟩ := p
    obtain ⟨p', hp'⟩ := matchSSN_cchar_some hrel hm
    rw [h] at hp'
    exact absurd hp' (by simp)

theorem cchar_censorFuel (fuel : Nat) : ∀ s : List Char,
    List.Forall₂ CChar s (censorFuel fuel s) := by
  induction fuel with
  | zero =>
    intro s
    simp only [censorFuel]
    exact List.forall₂_same.2 (fun x _ => CChar.keep x)
  | succ fuel ih =>
    intro s
    cases s with
    | nil => simp only [censorFuel]; exact .nil
    | cons c cs =>
      cases hm : matchSSN (c :: cs) with
      | none =>
        simp only [censorFuel, hm]
        exact List.Forall₂.cons (CChar.keep c) (ih cs)
      | some p =>
        obtain ⟨four, rest⟩ := p
        obtain ⟨a, b, hs, ha, hb, hf, da, db, df⟩ := matchSSN_some_decomp hm
        simp only [censorFuel, hm]
        rw [hs]
        obtain ⟨a1, a2, a3, rfl⟩ := List.length_eq_three.1 ha
        obtain ⟨b1, b2, rfl⟩ := List.length_eq_two.1 hb
        simp only [xxxMask, List.cons_append, List.nil_append, List.append_assoc]
        refine .cons (CChar.xout a1 (da a1 (by simp))) ?_
        refine .cons (CChar.xout a2 (da a2 (by simp))) ?_
        refine .cons (CChar.xout a3 (da a3 (by simp))) ?_
        refine .cons (CChar.keep '-') ?_
        refine .cons (CChar.xout b1 (db b1 (by simp))) ?_
        refine .cons (CChar.xout b2 (db b2 (by simp))) ?_
        refine .cons (CChar.keep '-') ?_
        exact List.rel_append (List.forall₂_same.2 (fun x _ => CChar.keep x)) (ih rest)

theorem censorFuel_steps : ∀ (pre : List Char) (fuel : Nat) (t : List Char),
    (∀ i, i < pre.length → matchSSN (pre.drop i ++ t) = none) →
    censorFuel (fuel + pre.length) (pre ++ t) = pre ++ censorFuel fuel t := by
  intro pre
  induction pre with
  | nil => intro fuel t _; simp
  | cons c pre ih =>
    intro fuel t hnone
    have h0 : matchSSN (c :: (pre ++ t)) = none := by
      have := hnone 0 (by simp)
      simpa using this
    have hstep : censorFuel (fuel + (pre.length + 1)) ((c :: pre) ++ t) =
        c :: censorFuel (fuel + pre.length) (pre ++ t) := by
      show censorFuel ((fuel + pre.length) + 1) (c :: (pre ++ t)) = _
      simp [censorFuel, h0]
    rw [show (c :: pre).length = pre.length + 1 by simp, hstep,
      ih fuel t (fun i hi => by simpa using hnone (i+1) (by simp; omega))]
    simp

theorem matchSSN_x_head : ∀ cs : List Char, matchSSN ('x' :: cs) = none :=
  fun _ => matchSSN_none_not_digit (by decide)

theorem matchSSN_hyphen_head : ∀ cs : List Char, matchSSN ('-' :: cs) = none :=
  fun _ => matchSSN_none_not_digit (by decide)

theorem censorFuel_block (fuel : Nat) (f t : List Char) (hf : f.length = 4)
    (df : ∀ ch ∈ f, ch.isDigit) (ht : headOk t = true) :
    censorFuel (fuel + 11) (xxxMask ++ (f ++ t)) = xxxMask ++ (f ++ censorFuel fuel t) := by
  obtain ⟨f1, f2, f3, f4, rfl⟩ := length_eq_four hf
  have d1 : f1.isDigit := df _ (by simp)
  have d2 : f2.isDigit := df _ (by simp)
  have d3 : f3.isDigit := df _ (by simp)
  have d4 : f4.isDigit := df _ (by simp)
  have hne4 : ¬ (f4 = '-') := by
    intro hEq
    rw [hEq] at d4
    exact absurd d4 (by decide)
  have hm1 : matchSSN (f1 :: f2 :: f3 :: f4 :: t) = none := by
    simp [matchSSN, takeDigits, d1, d2, d3, expectHyphen, hne4]
  have hm2 : matchSSN (f2 :: f3 :: f4 :: t) = none := by
    cases t with
    | nil => simp [matchSSN, takeDigits, d2, d3, d4, expectHyphen]
    | cons t0 ts =>
      have ht0 : t0.isDigit = false ∧ ¬ (t0 = '-') := by
        simpa [headOk] using ht
      simp [matchSSN, takeDigits, d2, d3, d4, expectHyphen, ht0.2]
  have hm3 : matchSSN (f3 :: f4 :: t) = none := by
    cases t with
    | nil => simp [matchSSN, takeDigits, d3, d4]
    | cons t0 ts =>
      have ht0 : t0.isDigit = false ∧ ¬ (t0 = '-') := by
        simpa [headOk] using ht
      simp [matchSSN, takeDigits, d3, d4, ht0.1]
  have hm4 : matchSSN (f4 :: t) = none := by
    cases t with
    | nil => simp [matchSSN, takeDigits, d4]
    | cons t0 ts =>
      have ht0 : t0.isDigit = false ∧ ¬ (t0 = '-') := by
        simpa [headOk] using ht
      simp [matchSSN, takeDigits, d4, ht0.1]
  have happ : xxxMask ++ ([f1, f2, f3, f4] ++ t) = (xxxMask ++ [f1, f2, f3, f4]) ++ t := by
    simp
  have hsteps := censorFuel_steps (xxxMask ++ [f1, f2, f3, f4]) fuel t ?_
  · rw [happ]
    rw [show (xxxMask ++ [f1, f2, f3, f4]).length = 11 by simp [xxxMask]] at hsteps
    rw [hsteps]
    simp [xxxMask]
  · intro i hi
    have hi' : i < 11 := by simpa [xxxMask] using hi
    interval_cases i <;>
      simp [xxxMask, matchSSN_x_head, matchSSN_hyphen_head, hm1, hm2, hm3, hm4]

theorem censorFuel_nomatch : ∀ (fuel : Nat) (s : List Char),
    (∀ u v : List Char, s = u ++ v → matchSSN v = none) → censorFuel fuel s = s := by
  intro fuel
  induction fuel with
  | zero => intro s _; simp [censorFuel]
  | succ fuel ih =>
    intro s hno
    cases s with
    | nil => simp [censorFuel]
    | cons c cs =>
      have h0 : matchSSN (c :: cs) = none := hno [] (c :: cs) rfl
      simp only [censorFuel, h0]
      rw [ih cs (fun u v hv => hno (c :: u) v (by simp [hv]))]

theorem censorFuel_idem : ∀ (g : Nat) (s : List Char) (h : Nat),
    s.length ≤ g → safeScanFuel g s = true → s.length ≤ h →
    censorFuel h (censorFuel g s) = censorFuel g s := by
  intro g
  induction g with
  | zero =>
    intro s h hle _ _
    have hnil : s = [] := List.eq_nil_of_length_eq_zero (Nat.le_zero.1 hle)
    subst hnil
    simp [censorFuel, censorFuel_nilInput]
  | succ g ih =>
    intro s h hle hscan hle2
    cases s with
    | nil => simp [censorFuel_nilInput]
    | cons c cs =>
      cases hm : matchSSN (c :: cs) with
      | none =>
        have hscan' : safeScanFuel g cs = true := by
          simpa [safeScanFuel, hm] using hscan
        simp only [censorFuel, hm]
        have hrel : List.Forall₂ CChar (c :: cs) (c :: censorFuel g cs) :=
          .cons (CChar.keep c) (cchar_censorFuel g cs)
        have hm2 : matchSSN (c :: censorFuel g cs) = none := matchSSN_cchar_none hrel hm
        obtain ⟨h', rfl⟩ : ∃ h', h = h' + 1 := ⟨h - 1, by simp at hle2; omega⟩
        simp only [censorFuel, hm2]
        rw [ih cs h' (by simp at hle; omega) hscan'
          (by have := censorFuel_length g cs; simp at hle2; omega)]
      | some p =>
        obtain ⟨four, rest⟩ := p
        obtain ⟨hlen11, hf4⟩ := matchSSN_some_length hm
        simp only [List.length_cons] at hlen11
        have hscan2 : headOk rest = true ∧ safeScanFuel g rest = true := by
          have := hscan
          simp only [safeScanFuel, hm, Bool.and_eq_true] at this
          exact this
        obtain ⟨a, b, hs, ha, hb, hf, da, db, df⟩ := matchSSN_some_decomp hm
        simp only [censorFuel, hm]
        have hrest_len : rest.length ≤ g := by simp at hle; omega
        have hheadOk2 : headOk (censorFuel g rest) = true := by
          cases rest with
          | nil => simp [censorFuel_nilInput, headOk]
          | cons r0 rs =>
            obtain ⟨g', rfl⟩ : ∃ g', g = g' + 1 :=
              ⟨g - 1, by simp at hrest_len; omega⟩
            have hr0 : r0.isDigit = false ∧ ¬ (r0 = '-') := by
              simpa [headOk] using hscan2.1
            have hmr : matchSSN (r0 :: rs) = none := matchSSN_none_not_digit hr0.1
            simp [censorFuel, hmr, headOk, hr0.1, hr0.2]
        obtain ⟨h', rfl⟩ : ∃ h', h = h' + 11 := ⟨h - 11, by simp at hle2; omega⟩
        have hblock := censorFuel_block h' four (censorFuel g rest) hf df hheadOk2
        rw [hblock, ih rest h' hrest_len hscan2.2
          (by have := censorFuel_length g rest; simp at hle2; omega)]

/-! ## The comparator order -/

theorem strLtB_irrefl : ∀ l : List Char, strLtB l l = false := by
  intro l
  induction l with
  | nil => simp [strLtB]
  | cons c cs ih => simp [strLtB, ih]

theorem strLtB_asymm : ∀ {l m : List Char}, strLtB l m = true → strLtB m l = false := by
  intro l
  induction l with
  | nil =>
    intro m h
    cases m with
    | nil => simp [strLtB] at h
    | cons c cs => simp [strLtB]
  | cons a as ih =>
    intro m h
    cases m with
    | nil => simp [strLtB] at h
    | cons b bs =>
      by_cases hab : a < b
      · have h1 : ¬ b < a := lt_asymm hab
        simp [strLtB, h1, hab]
      · by_cases hba : b < a
        · simp [strLtB, hab, hba] at h
        · simp only [strLtB, if_neg hab, if_neg hba] at h
          simp only [strLtB, if_neg hba, if_neg hab]
          exact ih h

theorem strLtB_trans : ∀ {l m k : List Char},
    strLtB l m = true → strLtB m k = true → strLtB l k = true := by
  intro l
  induction l with
  | nil =>
    intro m k h1 h2
    cases m with
    | nil => simp [strLtB] at h1
    | cons b bs =>
      cases k with
      | nil => simp [strLtB] at h2
      | cons c cs => simp [strLtB]
  | cons a as ih =>
    intro m k h1 h2
    cases m with
    | nil => simp [strLtB] at h1
    | cons b bs =>
      cases k with
      | nil => simp [strLtB] at h2
      | cons c cs =>
        by_cases hab : a < b
        · by_cases hbc : b < c
          · simp [strLtB, lt_trans hab hbc]
          · by_cases hcb : c < b
            · simp [strLtB, hbc, hcb] at h2
            · have hbceq : b = c := le_antisymm (le_of_not_lt hcb) (le_of_not_lt hbc)
              subst hbceq
              simp [strLtB, hab]
        · by_cases hba : b < a
          · simp [strLtB, hab, hba] at h1
          · have habeq : a = b := le_antisymm (le_of_not_lt hba) (le_of_not_lt hab)
            subst habeq
            simp only [strLtB, if_neg hab, if_neg hba] at h1
            by_cases hac : a < c
            · simp [strLtB, hac]
            · by_cases hca : c < a
              · simp [strLtB, hac, hca] at h2
              · have haceq : a = c := le_antisymm (le_of_not_lt hca) (le_of_not_lt hac)
                subst haceq
                simp only [strLtB, if_neg hac, if_neg hca] at h2 ⊢
                exact ih h1 h2

theorem strLtB_eq_of_not : ∀ {l m : List Char},
    strLtB l m = false → strLtB m l = false → l = m := by
  intro l
  induction l with
  | nil =>
    intro m h1 _
    cases m with
    | nil => rfl
    | cons b bs => simp [strLtB] at h1
  | cons a as ih =>
    intro m h1 h2
    cases m with
    | nil => simp [strLtB] at h2
    | cons b bs =>
      by_cases hab : a < b
      · simp [strLtB, hab] at h1
      · by_cases hba : b < a
        · simp [strLtB, hba] at h2
        · have habeq : a = b := le_antisymm (le_of_not_lt hba) (le_of_not_lt hab)
          subst habeq
          simp only [strLtB, if_neg hab, if_neg hba] at h1 h2
          rw [ih h1 h2]

theorem notLt_trans : ∀ {x y z : List Char},
    strLtB y x = false → strLtB z y = false → strLtB z x = false := by
  intro x y z h1 h2
  cases hza : strLtB z x with
  | false => rfl
  | true =>
    cases hab : strLtB x y with
    | false =>
      have hxy := strLtB_eq_of_not hab h1
      subst hxy
      simp [hza] at h2
    | true =>
      have := strLtB_trans hza hab
      simp [this] at h2

theorem notLt_total : ∀ (x y : List Char), strLtB y x = false ∨ strLtB x y = false := by
  intro x y
  cases h : strLtB y x with
  | false => exact Or.inl rfl
  | true => exact Or.inr (strLtB_asymm h)

theorem le1_iff (a b : Employee) :
    (decide (lastNameCmp a b ≤ 0) = true) ↔ strLtB b.lastName.data a.lastName.data = false := by
  unfold lastNameCmp jsStrLt
  by_cases h1 : strLtB a.lastName.data b.lastName.data = true
  · simp [h1, strLtB_asymm h1]
  · by_cases h2 : strLtB b.lastName.data a.lastName.data = true
    · simp [h1, h2]
    · simp [h1, h2]

theorem le2_desc_iff (a b : Employee) :
    (decide (lastNameCmpOrd "desc" a b ≤ 0) = true) ↔
      strLtB b.lastName.data a.lastName.data = false := by
  unfold lastNameCmpOrd jsStrLt
  by_cases h1 : strLtB a.lastName.data b.lastName.data = true
  · simp [h1, strLtB_asymm h1]
  · by_cases h2 : strLtB b.lastName.data a.lastName.data = true
    · simp [h1, h2]
    · simp [h1, h2]

theorem le2_other_iff (order : String) (hor : ¬ order = "desc") (a b : Employee) :
    (decide (lastNameCmpOrd order a b ≤ 0) = true) ↔
      strLtB a.lastName.data b.lastName.data = false := by
  unfold lastNameCmpOrd jsStrLt
  by_cases h1 : strLtB a.lastName.data b.lastName.data = true
  · simp [h1, hor]
  · by_cases h2 : strLtB b.lastName.data a.lastName.data = true
    · simp [h1, h2, hor]
    · simp [h1, h2]

theorem le1_trans : ∀ (a b c : Employee),
    decide (lastNameCmp a b ≤ 0) → decide (lastNameCmp b c ≤ 0) →
    decide (lastNameCmp a c ≤ 0) := by
  intro a b c h1 h2
  rw [le1_iff] at h1 h2 ⊢
  exact notLt_trans h1 h2

theorem le1_total : ∀ (a b : Employee),
    decide (lastNameCmp a b ≤ 0) || decide (lastNameCmp b a ≤ 0) := by
  intro a b
  rcases notLt_total a.lastName.data b.lastName.data with h | h
  · simp [Bool.or_eq_true, (le1_iff a b).2 h]
  · simp [Bool.or_eq_true, (le1_iff b a).2 h]

theorem le2_desc_trans : ∀ (a b c : Employee),
    decide (lastNameCmpOrd "desc" a b ≤ 0) → decide (lastNameCmpOrd "desc" b c ≤ 0) →
    decide (lastNameCmpOrd "desc" a c ≤ 0) := by
  intro a b c h1 h2
  rw [le2_desc_iff] at h1 h2 ⊢
  exact notLt_trans h1 h2

theorem le2_desc_total : ∀ (a b : Employee),
    decide (lastNameCmpOrd "desc" a b ≤ 0) || decide (lastNameCmpOrd "desc" b a ≤ 0) := by
  intro a b
  rcases notLt_total a.lastName.data b.lastName.data with h | h
  · simp [Bool.or_eq_true, (le2_desc_iff a b).2 h]
  · simp [Bool.or_eq_true, (le2_desc_iff b a).2 h]

theorem le2_other_trans (order : String) (hor : ¬ order = "desc") : ∀ (a b c : Employee),
    decide (lastNameCmpOrd order a b ≤ 0) → decide (lastNameCmpOrd order b c ≤ 0) →
    decide (lastNameCmpOrd order a c ≤ 0) := by
  intro a b c h1 h2
  rw [le2_other_iff order hor] at h1 h2 ⊢
  exact notLt_trans h2 h1

theorem le2_other_total (order : String) (hor : ¬ order = "desc") : ∀ (a b : Employee),
    decide (lastNameCmpOrd order a b ≤ 0) || decide (lastNameCmpOrd order b a ≤ 0) := by
  intro a b
  rcases notLt_total a.lastName.data b.lastName.data with h | h
  · simp [Bool.or_eq_true, (le2_other_iff order hor b a).2 h]
  · simp [Bool.or_eq_true, (le2_other_iff order hor a b).2 h]

/-! ## The filter stage -/

theorem selectActive_eq_filter : ∀ xs : List Employee,
    selectActive xs = xs.filter (fun e => e.active) := by
  intro xs
  induction xs with
  | nil => simp [selectActive]
  | cons e rest ih =>
    by_cases he : e.active
    · simp [selectActive, he, ih]
    · simp [selectActive, he, ih]

theorem selectActive_sublist : ∀ xs : List Employee, List.Sublist (selectActive xs) xs := by
  intro xs
  rw [selectActive_eq_filter]
  exact List.filter_sublist xs

theorem selectActive_mem : ∀ (xs : List Employee) (e : Employee),
    e ∈ selectActive xs ↔ e ∈ xs ∧ e.active = true := by
  intro xs e
  rw [selectActive_eq_filter]
  simp [List.mem_filter]

/-! ## Totality of the tabulators on nonempty payments -/

theorem mapO_total {α β : Type} (f : α → Option β) :
    ∀ l : List α, (∀ x ∈ l, ∃ y, f x = some y) → ∃ rs, mapO f l = some rs := by
  intro l
  induction l with
  | nil => intro _; exact ⟨[], rfl⟩
  | cons a l ih =>
    intro h
    obtain ⟨y, hy⟩ := h a (by simp)
    obtain ⟨rs, hrs⟩ := ih (fun x hx => h x (by simp [hx]))
    exact ⟨y :: rs, by simp [mapO, hy, hrs]⟩

/-! ## Censor: full-match replacement and no-match preservation -/

theorem censorFuel_full_match (fuel : Nat) (a b c : List Char)
    (ha : a.length = 3) (hb : b.length = 2) (hc : c.length = 4)
    (da : ∀ ch ∈ a, ch.isDigit) (db : ∀ ch ∈ b, ch.isDigit) (dc : ∀ ch ∈ c, ch.isDigit) :
    censorFuel (fuel + 1) (a ++ '-' :: (b ++ '-' :: c)) = xxxMask ++ c := by
  have hm : matchSSN (a ++ '-' :: (b ++ '-' :: c)) = some (c, []) := by
    have := matchSSN_eq_some a b c [] ha hb hc da db dc
    simpa using this
  obtain ⟨a1, a2, a3, rfl⟩ := List.length_eq_three.1 ha
  show censorFuel (fuel + 1) (a1 :: (a2 :: a3 :: '-' :: (b ++ '-' :: c))) = xxxMask ++ c
  have hm' : matchSSN (a1 :: (a2 :: a3 :: '-' :: (b ++ '-' :: c))) = some (c, []) := by
    simpa using hm
  simp [censorFuel, hm', censorFuel_nilInput]

theorem censor_full_match (a b c : List Char)
    (ha : a.length = 3) (hb : b.length = 2) (hc : c.length = 4)
    (da : ∀ ch ∈ a, ch.isDigit) (db : ∀ ch ∈ b, ch.isDigit) (dc : ∀ ch ∈ c, ch.isDigit) :
    censor (String.mk (a ++ '-' :: (b ++ '-' :: c))) = String.mk (xxxMask ++ c) := by
  unfold censor
  congr 1
  obtain ⟨a1, a2, a3, rfl⟩ := List.length_eq_three.1 ha
  exact censorFuel_full_match (a2 :: a3 :: '-' :: (b ++ '-' :: c)).length [a1, a2, a3] b c
    rfl hb hc da db dc

theorem censor_no_match (s : String)
    (h : ¬ ∃ u v w : List Char, s.data = u ++ v ++ w ∧ IsSSN v) : censor s = s := by
  have hnone : ∀ u v : List Char, s.data = u ++ v → matchSSN v = none := by
    intro u v huv
    cases hm : matchSSN v with
    | none => rfl
    | some p =>
      obtain ⟨four, rest⟩ := p
      obtain ⟨a, b, hv, ha, hb, hf, da, db, df⟩ := matchSSN_some_decomp hm
      exfalso
      apply h
      refine ⟨u, a ++ '-' :: (b ++ '-' :: four), rest, ?_,
        a, b, four, rfl, ha, hb, hf, da, db, df⟩
      rw [huv, hv]
      simp
  unfold censor
  rw [censorFuel_nomatch _ _ hnone]

/-!
## The claims
-/

/-- C1.  For the two-record input with John Doe's and Mary Jane's twelve
payments, tabulating with header `["Last Name", "First Name", "Total
Salary"]` and rendering as CSV yields exactly
`"Last Name,First Name,Total Salary\nDoe,John,97234.76\nJane,Mary,151928.21"`
(newline-separated rows, no trailing newline) — the floating-point sums of
the payments print as `97234.76` and `151928.21`. -/
theorem claim1_tabulate_toCSV_roundtrip :
    toCSV (makeEmployeeSummaryTable [johnDoe, maryJane]) =
      "Last Name,First Name,Total Salary\nDoe,John,97234.76\nJane,Mary,151928.21" := by
  decide

/-- C2.  Evaluating `JSONtoTable` on a one-record input: the data row is
`[lastName, firstName, socialSecurity, paySum]`, so the cell in column 2 —
under the header label `"Total Pay"` — holds the social-security string, and
the cell in column 3 — under `"Social Security Number"` — holds the numeric
payments sum.  The row's cells are *not* in the header's announced order
(only the trailing-numeric-cell part of the claim holds). -/
theorem claim2_total_pay_column_holds_identifier :
    JSONtoTable [doeOne] = some
      [[Cell.str "Last Name", Cell.str "First Name", Cell.str "Total Pay",
        Cell.str "Social Security Number"],
       [Cell.str "Doe", Cell.str "John", Cell.str "165-02-2588", Cell.num (Q.ofInt 100)]] ∧
    (((JSONtoTable [doeOne]).getD []).getD 0 []).getD 2 (Cell.str "") = Cell.str "Total Pay" ∧
    (((JSONtoTable [doeOne]).getD []).getD 1 []).getD 2 (Cell.str "") = Cell.str "165-02-2588" ∧
    (((JSONtoTable [doeOne]).getD []).getD 1 []).getD 3 (Cell.str "") = Cell.num (Q.ofInt 100) := by
  refine ⟨by decide, by decide, by decide, by decide⟩

/-- C3 (counterexample).  `sortByLastName2` with order `"asc"` applied to
records with last names `"A", "B"` returns them in the order `"B", "A"` —
strictly decreasing — although `"A" < "B"` in code-point order, so the
`"asc"` setting does *not* sort non-decreasing as claimed. -/
theorem claim3_counterexample :
    sortByLastName2 [empA, empB] "asc" = [empB, empA] ∧
    jsStrLt empA.lastName empB.lastName = true := by
  constructor
  · simp [sortByLastName2, List.mergeSort, List.splitInTwo, List.merge,
      lastNameCmpOrd, jsStrLt, strLtB, empA, empB]
  · decide

/-- C3 (amended).  `sortByLastName2` returns a permutation of its input and
is stable on equal last names, but its order settings are inverted:
`"desc"` yields a non-decreasing sequence by last name and every other
setting (including the omitted-argument case) yields a non-increasing one.
The unparameterised `sortByLastName` sorts non-decreasing, permutes, and is
stable. -/
theorem claim3_sort_properties :
    ∀ (xs : List Employee) (order : String),
      List.Perm (sortByLastName2 xs order) xs ∧
      (order = "desc" →
        (sortByLastName2 xs order).Pairwise
          (fun a b => strLtB b.lastName.data a.lastName.data = false)) ∧
      (¬ order = "desc" →
        (sortByLastName2 xs order).Pairwise
          (fun a b => strLtB a.lastName.data b.lastName.data = false)) ∧
      (∀ a b, List.Sublist [a, b] xs → a.lastName = b.lastName →
        List.Sublist [a, b] (sortByLastName2 xs order)) ∧
      List.Perm (sortByLastName xs) xs ∧
      (sortByLastName xs).Pairwise
        (fun a b => strLtB b.lastName.data a.lastName.data = false) ∧
      (∀ a b, List.Sublist [a, b] xs → a.lastName = b.lastName →
        List.Sublist [a, b] (sortByLastName xs)) := by
  intro xs order
  refine ⟨List.mergeSort_perm xs _, ?_, ?_, ?_, List.mergeSort_perm xs _, ?_, ?_⟩
  · intro hord
    subst hord
    have hs := List.sorted_mergeSort le2_desc_trans le2_desc_total xs
    exact hs.imp (fun hab => (le2_desc_iff _ _).1 hab)
  · intro hord
    have hs := List.sorted_mergeSort (le2_other_trans order hord) (le2_other_total order hord) xs
    exact hs.imp (fun hab => (le2_other_iff order hord _ _).1 hab)
  · intro a b hsub heq
    by_cases hord : order = "desc"
    · subst hord
      exact List.pair_sublist_mergeSort le2_desc_trans le2_desc_total
        (by simp [lastNameCmpOrd, jsStrLt, heq, strLtB_irrefl]) hsub
    · exact List.pair_sublist_mergeSort (le2_other_trans order hord) (le2_other_total order hord)
        (by simp [lastNameCmpOrd, jsStrLt, heq, strLtB_irrefl]) hsub
  · have hs := List.sorted_mergeSort le1_trans le1_total xs
    exact hs.imp (fun hab => (le1_iff _ _).1 hab)
  · intro a b hsub heq
    exact List.pair_sublist_mergeSort le1_trans le1_total
      (by simp [lastNameCmp, jsStrLt, heq, strLtB_irrefl]) hsub

/-- C3 (witness).  The amended theorem at concrete inputs: `"asc"` on
`[B, A]` permutes and sorts non-increasing; ties keep their order. -/
theorem claim3_sort_properties_witness :
    List.Perm (sortByLastName2 [empB, empA] "asc") [empB, empA] ∧
    (sortByLastName2 [empB, empA] "asc").Pairwise
      (fun a b => strLtB a.lastName.data b.lastName.data = false) ∧
    List.Sublist [empT1, empT2] (sortByLastName2 [empT1, empT2] "asc") := by
  have h1 := claim3_sort_properties [empB, empA] "asc"
  have h2 := claim3_sort_properties [empT1, empT2] "asc"
  exact ⟨h1.1, h1.2.2.1 (by decide),
    h2.2.2.2.1 empT1 empT2 (List.Sublist.refl _) rfl⟩

/-- C4.  The filter, censor and tabulate calls leave the caller's argument
holding its original value, but `sortByLastName` — whose `xs.sort(...)`
sorts in place and returns the same array — leaves the caller's argument
permuted: after sorting `[B, A]` the argument holds `[A, B]`, not the
original `[B, A]`, and the returned value is the argument itself rather
than a fresh collection. -/
theorem claim4_sort_mutates_argument :
    (∀ xs : List Employee, (selectActiveCall xs).argAfter = xs) ∧
    (∀ s : String, (censorCall s).argAfter = s) ∧
    (∀ xs : List Employee, (JSONtoTableCall xs).argAfter = xs) ∧
    (∀ xs : List Employee, (sortByLastNameCall xs).ret = (sortByLastNameCall xs).argAfter) ∧
    (sortByLastNameCall [empB, empA]).argAfter = [empA, empB] ∧
    [empA, empB] ≠ [empB, empA] := by
  refine ⟨fun _ => rfl, fun _ => rfl, fun _ => rfl, fun _ => rfl, ?_, by decide⟩
  show sortByLastName [empB, empA] = [empA, empB]
  simp [sortByLastName, List.mergeSort, List.splitInTwo, List.merge,
    lastNameCmp, jsStrLt, strLtB, empA, empB]

/-- C5.  `censor` replaces every occurrence of `\d{3}-\d{2}-(\d{4})`:
a full match anywhere in the scan is rewritten to `xxx-xx-` plus its own
captured last four digits (stated for a whole-string match over arbitrary
digits); text containing no match at all is returned unchanged; the
spec's example holds; and a two-occurrence input has both occurrences
replaced. -/
theorem claim5_censor_replaces_every_match :
    (∀ a b c : List Char, a.length = 3 → b.length = 2 → c.length = 4 →
      (∀ ch ∈ a, ch.isDigit) → (∀ ch ∈ b, ch.isDigit) → (∀ ch ∈ c, ch.isDigit) →
      censor (String.mk (a ++ '-' :: (b ++ '-' :: c))) = String.mk (xxxMask ++ c)) ∧
    (∀ s : String, (¬ ∃ u v w : List Char, s.data = u ++ v ++ w ∧ IsSSN v) → censor s = s) ∧
    censor "165-02-2588" = "xxx-xx-2588" ∧
    censor "165-02-2588 and 078-05-1120" = "xxx-xx-2588 and xxx-xx-1120" :=
  ⟨censor_full_match, censor_no_match, by decide, by decide⟩

/-- C5 (witness).  The general parts at concrete inputs: the spec's
example via the universally quantified full-match conjunct, and a
match-free string (no digit at all) left unchanged. -/
theorem claim5_censor_witness :
    censor (String.mk (['1', '6', '5'] ++ '-' :: (['0', '2'] ++ '-' :: ['2', '5', '8', '8']))) =
      String.mk (xxxMask ++ ['2', '5', '8', '8']) ∧
    censor "abc" = "abc" := by
  refine ⟨claim5_censor_replaces_every_match.1 ['1', '6', '5'] ['0', '2'] ['2', '5', '8', '8']
    (by decide) (by decide) (by decide) (by decide) (by decide) (by decide), ?_⟩
  refine claim5_censor_replaces_every_match.2.1 "abc" ?_
  rintro ⟨u, v, w, hvw, a, b, c, hv, -, -, -, -, -, -⟩
  have hmem : '-' ∈ "abc".data := by
    rw [hvw, hv]
    simp
  exact absurd hmem (by decide)

/-- C6 (counterexample).  `censor` is *not* idempotent: censoring
`"123-45-67890-12-3456"` yields `"xxx-xx-67890-12-3456"`, whose preserved
last four digits `6789` abut the digits that follow, so a second pass finds
the fresh match `012-34-5678` and rewrites again. -/
theorem claim6_counterexample :
    censor "123-45-67890-12-3456" = "xxx-xx-67890-12-3456" ∧
    censor (censor "123-45-67890-12-3456") = "xxx-xx-67xxx-xx-3456" ∧
    censor (censor "123-45-67890-12-3456") ≠ censor "123-45-67890-12-3456" := by
  refine ⟨by decide, by decide, by decide⟩

/-- C6 (amended).  `censor` is idempotent on every text in which each
match found by the censoring scan is followed by a character that is
neither a digit nor a hyphen (or by the end of the text): re-censoring
such already-censored text changes nothing.  The unrestricted claim fails
(see the counterexample). -/
theorem claim6_censor_idempotent_when_matches_delimited :
    ∀ s : String, safeScan s = true → censor (censor s) = censor s := by
  intro s h
  unfold censor
  congr 1
  exact censorFuel_idem s.data.length s.data _ le_rfl h
    (le_of_eq (censorFuel_length s.data.length s.data).symm)

/-- C6 (witness).  The amended idempotence at the spec's own example. -/
theorem claim6_censor_idempotent_witness :
    safeScan "165-02-2588" = true ∧
    censor (censor "165-02-2588") = censor "165-02-2588" :=
  ⟨by decide, claim6_censor_idempotent_when_matches_delimited "165-02-2588" (by decide)⟩

/-- C7.  `makeTable`'s header row has two cells (`"Last Name"`,
`"First Name"`) while every data row it builds has three (last name, first
name, pay sum): the row arities are `[2, 3]`, so the
same-arity-as-the-header invariant fails for this tabulator; `JSONtoTable`,
in contrast, produces matching arities `[4, 4]`, one data row per record,
header first. -/
theorem claim7_makeTable_header_arity_mismatch :
    makeTable [doeOne] = some
      [[Cell.str "Last Name", Cell.str "First Name"],
       [Cell.str "Doe", Cell.str "John", Cell.num (Q.ofInt 100)]] ∧
    ((makeTable [doeOne]).getD []).map List.length = [2, 3] ∧
    ((JSONtoTable [doeOne]).getD []).map List.length = [4, 4] := by
  refine ⟨by decide, by decide, by decide⟩

/-- C8.  `selectActive` keeps exactly the records whose `active` attribute
is true, in their original relative order: the output is a sublist
(order-preserving subsequence) of the input, membership is exactly
membership-with-active, and the function coincides with the stable
filter. -/
theorem claim8_selectActive_spec :
    ∀ xs : List Employee,
      List.Sublist (selectActive xs) xs ∧
      (∀ e, e ∈ selectActive xs ↔ e ∈ xs ∧ e.active = true) ∧
      selectActive xs = xs.filter (fun e => e.active) := by
  intro xs
  exact ⟨selectActive_sublist xs, fun e => selectActive_mem xs e, selectActive_eq_filter xs⟩

/-- C8 (witness).  The specification at a concrete mixed list (one active,
one inactive record). -/
theorem claim8_selectActive_witness :
    List.Sublist (selectActive [empA, empT2]) [empA, empT2] ∧
    (empA ∈ selectActive [empA, empT2] ↔ empA ∈ [empA, empT2] ∧ empA.active = true) ∧
    selectActive [empA, empT2] = [empA, empT2].filter (fun e => e.active) := by
  have h := claim8_selectActive_spec [empA, empT2]
  exact ⟨h.1, h.2.1 empA, h.2.2⟩

/-- C9 (counterexample).  A well-formed record whose payments sequence is
empty makes the reduce-with-no-initial-value tabulators fail: both
`JSONtoTable` and `makeTable` throw (return `none`) on such input, so the
stages are not total over all well-formed records. -/
theorem claim9_counterexample :
    emptyPayEmp.pay = [] ∧ emptyPayEmp.active = true ∧
    JSONtoTable [emptyPayEmp] = none ∧ makeTable [emptyPayEmp] = none := by
  refine ⟨rfl, rfl, by decide, by decide⟩

/-- C9 (amended).  The tabulators are total over well-formed records whose
payments sequences are all nonempty: both `JSONtoTable` and `makeTable`
return a table on every such input. -/
theorem claim9_total_on_nonempty_payments :
    ∀ es : List Employee, (∀ e ∈ es, e.pay ≠ []) →
      (∃ t, JSONtoTable es = some t) ∧ (∃ t, makeTable es = some t) := by
  intro es h
  have hrow1 : ∀ e ∈ es, ∃ y, ((jsReduceAdd e.pay).map (fun total =>
      [Cell.str e.lastName, Cell.str e.firstName, Cell.str e.socialSecurity,
        Cell.num total])) = some y := by
    intro e he
    cases hp : e.pay with
    | nil => exact absurd hp (h e he)
    | cons x xs => exact ⟨_, rfl⟩
  have hrow2 : ∀ e ∈ es, ∃ y, ((jsReduceAdd e.pay).map (fun total =>
      [Cell.str e.lastName, Cell.str e.firstName, Cell.num total])) = some y := by
    intro e he
    cases hp : e.pay with
    | nil => exact absurd hp (h e he)
    | cons x xs => exact ⟨_, rfl⟩
  obtain ⟨rs1, h1⟩ := mapO_total _ es hrow1
  obtain ⟨rs2, h2⟩ := mapO_total _ es hrow2
  constructor
  · exact ⟨_, by unfold JSONtoTable; rw [h1]; rfl⟩
  · exact ⟨_, by unfold makeTable; rw [h2]; rfl⟩

/-- C9 (witness).  Totality at a concrete nonempty-payments input. -/
theorem claim9_total_witness :
    (∃ t, JSONtoTable [doeOne] = some t) ∧ (∃ t, makeTable [doeOne] = some t) :=
  claim9_total_on_nonempty_payments [doeOne] (by decide)

/-- C10.  The composed pipeline's `toHTML` consults nothing beyond its
table argument — its output is unchanged under any ambient clock value —
but the procedural `SalaryReporterHTMLReporter.write` reads the system
clock (`new Date()`) internally and splices it into the `<title>`, so two
calls on the same table at different clock readings produce different
text; no caller-supplied `asOfDate` parameter exists in either draft. -/
theorem claim10_procedural_renderer_reads_clock :
    (∀ (t : Table) (c1 c2 : String), toHTMLAt t c1 = toHTMLAt t c2) ∧
    htmlWriteReport [[Cell.str "Heading"], [Cell.str "datum"]] "Mon Jan 01 2024" ≠
      htmlWriteReport [[Cell.str "Heading"], [Cell.str "datum"]] "Tue Jan 02 2024" :=
  ⟨fun _ _ _ => rfl, by decide⟩

end RealWorldFP
